import Mathlib

/-!
Shallow embedding of the webcash wallet core (`src/wallet.h`).

The header implements `Amount`'s inline operators and the
`PublicWebcash(const SecretWebcash&)` constructor directly; the remaining
operations (`Amount::parse`, `to_string`, `Wallet::Insert`,
`Wallet::ReplaceWebcash`, `Wallet::GetOrCreateHDRoot`,
`Wallet::UpgradeDatabase`, `Wallet::ReserveSecret`, `Wallet::AcceptTerms`)
are only declared there; their behaviour is modelled from the
specification, as marked on each definition.

Machine integers are modelled as `Int` with explicit wrapping at 64 bits
where the C++ code performs raw `int64_t` arithmetic.  The SHA-256
primitive (`crypto/sha256.h`) is an external collaborator of the wallet
core, so commitments are computed through an explicit hash-function
parameter `H` applied to the secret string's bytes.
-/

/-- Two's-complement wrap of an integer into the `int64_t` range
`[-2^63, 2^63)`, modelling what raw C++ `int64_t` arithmetic produces. -/
def wrap64 (x : Int) : Int := (x + 2 ^ 63) % 2 ^ 64 - 2 ^ 63

/-- `struct Amount` (`src/wallet.h:30`): a wrapper around an `int64_t`. -/
structure Amount where
  i64 : Int
deriving DecidableEq

/-- Default constructor `Amount() : i64(0)`. -/
def Amount.default : Amount := ⟨0⟩

/-- Constructor `Amount(int64_t _i64) : i64(_i64)`. -/
def Amount.ofInt64 (x : Int) : Amount := ⟨x⟩

/-- `operator+` (`src/wallet.h:51`): `Amount(lhs.i64 + rhs.i64)` with raw
`int64_t` addition, i.e. wrapping on overflow. -/
def Amount.add (lhs rhs : Amount) : Amount := ⟨wrap64 (lhs.i64 + rhs.i64)⟩

/-- `operator-` (`src/wallet.h:50`): `Amount(lhs.i64 - rhs.i64)` with raw
`int64_t` subtraction, i.e. wrapping on overflow. -/
def Amount.sub (lhs rhs : Amount) : Amount := ⟨wrap64 (lhs.i64 - rhs.i64)⟩

/-- `operator+=` (`src/wallet.h:38`): `i64 += rhs.i64; return *this`. -/
def Amount.addAssign (lhs rhs : Amount) : Amount := ⟨wrap64 (lhs.i64 + rhs.i64)⟩

/-- `operator-=` (`src/wallet.h:39`): `i64 -= rhs.i64; return *this`. -/
def Amount.subAssign (lhs rhs : Amount) : Amount := ⟨wrap64 (lhs.i64 - rhs.i64)⟩

/-- `operator==` (`src/wallet.h:42`): `lhs.i64 == rhs.i64`. -/
def Amount.beq (lhs rhs : Amount) : Bool := lhs.i64 == rhs.i64

/-- `operator!=` (`src/wallet.h:43`): `lhs.i64 != rhs.i64`. -/
def Amount.bne (lhs rhs : Amount) : Bool := lhs.i64 != rhs.i64

/-- `operator<` (`src/wallet.h:45`): `lhs.i64 < rhs.i64`. -/
def Amount.blt (lhs rhs : Amount) : Bool := decide (lhs.i64 < rhs.i64)

/-- `operator<=` (`src/wallet.h:46`): `lhs.i64 <= rhs.i64`. -/
def Amount.ble (lhs rhs : Amount) : Bool := decide (lhs.i64 ≤ rhs.i64)

/-- `operator>=` (`src/wallet.h:47`): `lhs.i64 >= rhs.i64`. -/
def Amount.bge (lhs rhs : Amount) : Bool := decide (rhs.i64 ≤ lhs.i64)

/-- `operator>` (`src/wallet.h:48`): `lhs.i64 > rhs.i64`. -/
def Amount.bgt (lhs rhs : Amount) : Bool := decide (rhs.i64 < lhs.i64)

/-- An `Amount` is representable when its value fits `int64_t`. -/
def Amount.inRange (a : Amount) : Prop := -(2 ^ 63) ≤ a.i64 ∧ a.i64 < 2 ^ 63

/-- The ASCII digit character for a decimal digit. -/
def digitChar (d : Nat) : Char := Char.ofNat (48 + d)

/-- Numeric value of an ASCII digit character. -/
def charVal (c : Char) : Nat := c.toNat - 48

/-- Whether a character is an ASCII decimal digit. -/
def isDigitChar (c : Char) : Bool := 48 ≤ c.toNat && c.toNat ≤ 57

/-- Accumulate the value of a most-significant-first digit string. -/
def parseNatDigits (cs : List Char) : Nat :=
  cs.foldl (fun acc c => 10 * acc + charVal c) 0

/-- Decimal rendering of a natural number, most significant digit first. -/
def natToString (n : Nat) : List Char :=
  if n = 0 then [digitChar 0] else ((Nat.digits 10 n).reverse).map digitChar

/-- Modelled from the spec: `to_string(const Amount&)` (`src/wallet.h:53`) is
only declared in the header; the spec states `Amount` renders as a decimal
integer. -/
def Amount.to_string (a : Amount) : List Char :=
  if a.i64 < 0 then '-' :: natToString a.i64.natAbs else natToString a.i64.toNat

/-- Whether a string is a well-formed decimal integer numeral: an optional
leading minus sign followed by a nonempty run of digits. -/
def isNumeral : List Char → Bool
  | [] => false
  | c :: rest =>
    if c = '-' then !rest.isEmpty && rest.all isDigitChar
    else (c :: rest).all isDigitChar

/-- The mathematical integer value denoted by a numeral string. -/
def numeralVal : List Char → Int
  | [] => 0
  | c :: rest =>
    if c = '-' then -(parseNatDigits rest : Int)
    else (parseNatDigits (c :: rest) : Int)

/-- Modelled from the spec: `Amount::parse` (`src/wallet.h:36`) is only
declared in the header; the spec states `parse` reads a decimal integer
back losslessly and rejects non-integer or out-of-`int64_t`-range input. -/
def Amount.parse : List Char → Option Amount
  | [] => none
  | c :: rest =>
    if c = '-' then
      if rest.isEmpty then none
      else if rest.all isDigitChar then
        if parseNatDigits rest ≤ 2 ^ 63 then some ⟨-(parseNatDigits rest : Int)⟩
        else none
      else none
    else
      if (c :: rest).all isDigitChar then
        if parseNatDigits (c :: rest) < 2 ^ 63 then some ⟨(parseNatDigits (c :: rest) : Int)⟩
        else none
      else none

/-- The bytes of a secret string, as written by
`Write((const unsigned char*)esk.sk.c_str(), esk.sk.size())`. -/
def strBytes (s : String) : List Nat := s.toUTF8.toList.map UInt8.toNat

/-- `struct SecretWebcash` (`src/wallet.h:55`): a secret string and an
amount. -/
structure SecretWebcash where
  sk : String
  amount : Amount
deriving DecidableEq

/-- `struct PublicWebcash` (`src/wallet.h:65`): a 256-bit commitment
(modelled as the hash function's output value) and an amount. -/
structure PublicWebcash where
  pk : Nat
  amount : Amount
deriving DecidableEq

/-- The converting constructor `PublicWebcash(const SecretWebcash& esk)`
(`src/wallet.h:71`): `amount(esk.amount)` and
`CSHA256().Write(esk.sk bytes).Finalize(pk)` — the commitment is the hash
`H` of the secret string's bytes.  The SHA-256 compression itself lives in
`crypto/sha256.h`, outside the wallet core, so it enters as the parameter
`H`. -/
def PublicWebcash.ofSecret (H : List Nat → Nat) (esk : SecretWebcash) : PublicWebcash :=
  { pk := H (strBytes esk.sk), amount := esk.amount }

/-- `struct WalletSecret` (`src/wallet.h:123`): a persisted secret row. -/
structure WalletSecret where
  id : Nat
  secret : String
  mine : Bool
  sweep : Bool
deriving DecidableEq

/-- `struct WalletOutput` (`src/wallet.h:131`): a persisted output row
tracking a public commitment, an optional link to a known secret row, an
amount and a spent flag. -/
structure WalletOutput where
  id : Nat
  hash : Nat
  secretId : Option Nat
  amount : Amount
  spent : Bool
deriving DecidableEq

/-- Modelled from the spec: the wallet's durable store (the sqlite3
database behind `class Wallet`), with the `secrets` and `outputs` tables,
their surrogate-key counters, the distinguished HD root reference, the
stored schema version and the accepted-terms ledger. -/
structure WalletStore where
  secrets : List WalletSecret
  outputs : List WalletOutput
  nextSecretId : Nat
  nextOutputId : Nat
  hdRoot : Option Nat
  schemaVersion : Nat
  termsAccepted : List String
deriving DecidableEq

/-- Look up an output row by its surrogate id. -/
def findOutput (st : WalletStore) (i : Nat) : Option WalletOutput :=
  st.outputs.find? (fun o => o.id == i)

/-- Exact integer sum of a list of amounts (the spec requires wallet sums
to be exact integer arithmetic). -/
def sumAmounts (l : List Amount) : Int := (l.map Amount.i64).sum

/-- Modelled from the spec: `Wallet::AddSecretToWallet` (`src/wallet.h:157`)
is a single-row insert into the `secrets` table returning the assigned
surrogate id. -/
def Wallet.AddSecretToWallet (st : WalletStore) (s : String) (mine sweep : Bool) :
    WalletStore × Nat :=
  ({ st with
      secrets := st.secrets ++ [⟨st.nextSecretId, s, mine, sweep⟩],
      nextSecretId := st.nextSecretId + 1 }, st.nextSecretId)

/-- Modelled from the spec: `Wallet::AddOutputToWallet` (`src/wallet.h:158`)
is a single-row insert into the `outputs` table returning the assigned
surrogate id. -/
def Wallet.AddOutputToWallet (st : WalletStore) (hash : Nat) (secretId : Option Nat)
    (amount : Amount) (spent : Bool) : WalletStore × Nat :=
  ({ st with
      outputs := st.outputs ++ [⟨st.nextOutputId, hash, secretId, amount, spent⟩],
      nextOutputId := st.nextOutputId + 1 }, st.nextOutputId)

/-- Modelled from the spec: `Wallet::ReserveSecret` (`src/wallet.h:156`)
persists a fresh secret value (the caller-supplied `fresh` randomness) as a
new `WalletSecret` row with the given flags. -/
def Wallet.ReserveSecret (st : WalletStore) (fresh : String) (mine sweep : Bool) :
    WalletStore × Nat :=
  Wallet.AddSecretToWallet st fresh mine sweep

/-- Modelled from the spec: `Wallet::Insert` (`src/wallet.h:166`) computes
the commitment of the given secret, rejects it if an output row with the
same commitment already exists, and otherwise persists the secret row and
a corresponding unspent output row linked to it. -/
def Wallet.Insert (H : List Nat → Nat) (st : WalletStore) (sk : SecretWebcash)
    (mine : Bool) : WalletStore × Bool :=
  let pk := H (strBytes sk.sk)
  if st.outputs.any (fun o => o.hash == pk) then (st, false)
  else
    let r1 := Wallet.AddSecretToWallet st sk.sk mine false
    let r2 := Wallet.AddOutputToWallet r1.1 pk (some r1.2) sk.amount false
    (r2.1, true)

/-- Errors of the replace operation: `conflict` for an already-spent or
unknown input, `validation` for a value-conservation mismatch. -/
inductive ReplaceError where
  | conflict
  | validation
deriving DecidableEq

/-- Whether an input row passes the store re-check: it must exist in the
store and its stored `spent` flag must still be false. -/
def checkInput (st : WalletStore) (inp : WalletOutput) : Bool :=
  match findOutput st inp.id with
  | some o => !o.spent
  | none => false

/-- The spent-marking applied to a stored output row by a replace: rows
consumed as inputs get `spent := true`, all other rows are untouched. -/
def markSpent (inputs : List WalletOutput) (o : WalletOutput) : WalletOutput :=
  if inputs.any (fun inp => inp.id == o.id) then { o with spent := true } else o

/-- The secret rows created for the requested outputs of a replace, with
ids assigned from `sid` upward. -/
def newSecrets (sid : Nat) : List (String × Amount) → List WalletSecret
  | [] => []
  | (s, _) :: rest => ⟨sid, s, true, false⟩ :: newSecrets (sid + 1) rest

/-- The unspent output rows created for the requested outputs of a replace,
with ids assigned from `oid` upward, each committing to its fresh secret. -/
def newOutputs (H : List Nat → Nat) (sid oid : Nat) :
    List (String × Amount) → List WalletOutput
  | [] => []
  | (s, a) :: rest => ⟨oid, H (strBytes s), some sid, a, false⟩ ::
      newOutputs H (sid + 1) (oid + 1) rest

/-- The `(secret id, output id)` result pairs of a replace. -/
def newPairs (sid oid n : Nat) : List (Nat × Nat) :=
  (List.range n).map (fun k => (sid + k, oid + k))

/-- Modelled from the spec: `Wallet::ReplaceWebcash` (`src/wallet.h:160`),
the atomic exchange.  It re-checks every input's spent flag from the store,
checks exact value conservation, and on success marks every input spent and
creates one fresh secret row and one unspent output row per requested
output, all in one transaction; on any precondition failure it returns an
error and the store unchanged. -/
def Wallet.ReplaceWebcash (H : List Nat → Nat) (st : WalletStore)
    (inputs : List WalletOutput) (outs : List (String × Amount)) :
    WalletStore × Except ReplaceError (List (Nat × Nat)) :=
  if inputs.all (checkInput st) then
    if sumAmounts (inputs.map WalletOutput.amount) = sumAmounts (outs.map Prod.snd) then
      ({ st with
          secrets := st.secrets ++ newSecrets st.nextSecretId outs,
          outputs := (st.outputs.map (markSpent inputs)) ++
            newOutputs H st.nextSecretId st.nextOutputId outs,
          nextSecretId := st.nextSecretId + outs.length,
          nextOutputId := st.nextOutputId + outs.length },
        Except.ok (newPairs st.nextSecretId st.nextOutputId outs.length))
    else (st, Except.error ReplaceError.validation)
  else (st, Except.error ReplaceError.conflict)

/-- Modelled from the spec: `Wallet::GetOrCreateHDRoot` (`src/wallet.h:154`)
loads the distinguished root secret row if present, and otherwise persists
the caller-supplied fresh randomness as a new `mine = true`, `sweep = false`
secret row and records it as the root. -/
def Wallet.GetOrCreateHDRoot (st : WalletStore) (fresh : String) : WalletStore × Nat :=
  match st.hdRoot with
  | some rid => (st, rid)
  | none =>
    let r := Wallet.AddSecretToWallet st fresh true false
    ({ r.1 with hdRoot := some r.2 }, r.2)

/-- Error of database upgrade: the stored schema version is newer than the
engine's latest known version. -/
inductive UpgradeError where
  | versionTooNew
deriving DecidableEq

/-- Modelled from the spec: `Wallet::UpgradeDatabase` (`src/wallet.h:153`)
migrates the stored schema version up to the engine's latest known version
`latest`, and fails closed when the stored version is strictly newer than
`latest`.  (No concrete migration steps are specified; migrating is
modelled as advancing the stored version.) -/
def Wallet.UpgradeDatabase (latest : Nat) (st : WalletStore) :
    Except UpgradeError WalletStore :=
  if latest < st.schemaVersion then Except.error UpgradeError.versionTooNew
  else Except.ok { st with schemaVersion := latest }

/-- Modelled from the spec: opening a wallet runs `UpgradeDatabase` and then
`GetOrCreateHDRoot`; if the upgrade fails closed, no wallet operation
proceeds and no handle is produced. -/
def Wallet.OpenWallet (latest : Nat) (st : WalletStore) (fresh : String) :
    Except UpgradeError (WalletStore × Nat) :=
  match Wallet.UpgradeDatabase latest st with
  | Except.error e => Except.error e
  | Except.ok st1 => Except.ok (Wallet.GetOrCreateHDRoot st1 fresh)

/-- Modelled from the spec: `Wallet::AcceptTerms` (`src/wallet.h:173`)
records acceptance of the given terms identifier; idempotent. -/
def Wallet.AcceptTerms (st : WalletStore) (terms : String) : WalletStore :=
  if st.termsAccepted.contains terms then st
  else { st with termsAccepted := st.termsAccepted ++ [terms] }

/-- The wallet operations that mutate the store. -/
inductive WalletOp where
  | insert (sk : SecretWebcash) (mine : Bool)
  | replace (inputs : List WalletOutput) (outs : List (String × Amount))
  | reserve (fresh : String) (mine sweep : Bool)
  | hdroot (fresh : String)
  | acceptTerms (terms : String)
deriving DecidableEq

/-- One mutating wallet operation applied to the store. -/
def Wallet.step (H : List Nat → Nat) (op : WalletOp) (st : WalletStore) : WalletStore :=
  match op with
  | WalletOp.insert sk mine => (Wallet.Insert H st sk mine).1
  | WalletOp.replace inputs outs => (Wallet.ReplaceWebcash H st inputs outs).1
  | WalletOp.reserve fresh mine sweep => (Wallet.ReserveSecret st fresh mine sweep).1
  | WalletOp.hdroot fresh => (Wallet.GetOrCreateHDRoot st fresh).1
  | WalletOp.acceptTerms terms => Wallet.AcceptTerms st terms

/-- Number of output rows carrying a given commitment. -/
def countHash (c : Nat) (st : WalletStore) : Nat :=
  (st.outputs.filter (fun o => o.hash == c)).length

/-- A sequence of insertions folded over the store. -/
def insertAll (H : List Nat → Nat) (l : List (SecretWebcash × Bool))
    (st : WalletStore) : WalletStore :=
  l.foldl (fun s p => (Wallet.Insert H s p.1 p.2).1) st

/-- The per-row spent-flag guarantee of one wallet step at position `i` of
the outputs table: the row keeps its id, `spent` never reverts from true to
false, and a false-to-true transition happens only when the row is consumed
as an input of a `replace` operation. -/
def SpentMonotoneAt (H : List Nat → Nat) (op : WalletOp) (st : WalletStore)
    (i : Nat) (h : i < st.outputs.length) : Prop :=
  ∃ h' : i < (Wallet.step H op st).outputs.length,
    ((Wallet.step H op st).outputs.get ⟨i, h'⟩).id = (st.outputs.get ⟨i, h⟩).id ∧
    ((st.outputs.get ⟨i, h⟩).spent = true →
      ((Wallet.step H op st).outputs.get ⟨i, h'⟩).spent = true) ∧
    (((Wallet.step H op st).outputs.get ⟨i, h'⟩).spent = true →
      (st.outputs.get ⟨i, h⟩).spent = true ∨
      ∃ inputs outs, op = WalletOp.replace inputs outs ∧
        inputs.any (fun inp => inp.id == (st.outputs.get ⟨i, h⟩).id) = true)

/-- A constant stand-in hash function used for concrete witnesses. -/
def Hex : List Nat → Nat := fun _ => 7

/-- An empty wallet store used for concrete witnesses. -/
def emptyStore : WalletStore :=
  { secrets := [], outputs := [], nextSecretId := 0, nextOutputId := 0,
    hdRoot := none, schemaVersion := 0, termsAccepted := [] }

/-- A store holding one unspent 100-unit output with a known secret, used
for concrete witnesses. -/
def store100 : WalletStore :=
  { secrets := [⟨0, "sec0", false, false⟩],
    outputs := [⟨0, 7, some 0, ⟨100⟩, false⟩],
    nextSecretId := 1, nextOutputId := 1,
    hdRoot := none, schemaVersion := 0, termsAccepted := [] }

/-- A store holding one already-spent output, used for concrete witnesses. -/
def storeSpent : WalletStore :=
  { secrets := [⟨0, "sec0", false, false⟩],
    outputs := [⟨0, 7, some 0, ⟨100⟩, true⟩],
    nextSecretId := 1, nextOutputId := 1,
    hdRoot := none, schemaVersion := 0, termsAccepted := [] }

/-- C3: for every hash function `H` and every `SecretWebcash` `esk`, the
converting constructor yields the commitment `H` of the secret string's
bytes and the secret's own amount. -/
theorem publicwebcash_ofSecret_spec (H : List Nat → Nat) (esk : SecretWebcash) :
    (PublicWebcash.ofSecret H esk).pk = H (strBytes esk.sk) ∧
    (PublicWebcash.ofSecret H esk).amount = esk.amount :=
  ⟨rfl, rfl⟩

/-- C10: `Amount`'s mutating and non-mutating arithmetic agree, a
default-constructed `Amount` equals `Amount(0)`, and the boolean comparison
operators coincide exactly with the corresponding relations on the
underlying 64-bit value. -/
theorem amount_ops_agree (a b : Amount) :
    Amount.addAssign a b = Amount.add a b ∧
    Amount.subAssign a b = Amount.sub a b ∧
    Amount.default = Amount.ofInt64 0 ∧
    (Amount.beq a b = true ↔ a.i64 = b.i64) ∧
    (Amount.bne a b = true ↔ a.i64 ≠ b.i64) ∧
    (Amount.blt a b = true ↔ a.i64 < b.i64) ∧
    (Amount.ble a b = true ↔ a.i64 ≤ b.i64) ∧
    (Amount.bge a b = true ↔ b.i64 ≤ a.i64) ∧
    (Amount.bgt a b = true ↔ b.i64 < a.i64) := by
  refine ⟨rfl, rfl, rfl, ?_, ?_, ?_, ?_, ?_, ?_⟩ <;>
    simp [Amount.beq, Amount.bne, Amount.blt, Amount.ble, Amount.bge, Amount.bgt]

/-- C6: the inline `Amount` operators perform raw 64-bit arithmetic with no
overflow detection: adding one to the largest representable amount silently
wraps to the smallest, and subtracting one from the smallest wraps to the
largest, instead of raising a fatal arithmetic error. -/
theorem amount_overflow_silently_wraps :
    Amount.add ⟨2 ^ 63 - 1⟩ ⟨1⟩ = ⟨-(2 ^ 63)⟩ ∧
    Amount.sub ⟨-(2 ^ 63)⟩ ⟨1⟩ = ⟨2 ^ 63 - 1⟩ := by
  constructor <;> · simp only [Amount.add, Amount.sub, wrap64]; decide

/-- C8: `GetOrCreateHDRoot` is idempotent: after one call the store records
the returned root, and a second call (against the stored state, as across
sequential opens of the same file) returns exactly the same store and the
same root id, creating nothing new. -/
theorem hdroot_idempotent (st : WalletStore) (f1 f2 : String) :
    Wallet.GetOrCreateHDRoot (Wallet.GetOrCreateHDRoot st f1).1 f2
      = Wallet.GetOrCreateHDRoot st f1 ∧
    (Wallet.GetOrCreateHDRoot st f1).1.hdRoot = some (Wallet.GetOrCreateHDRoot st f1).2 := by
  cases h : st.hdRoot with
  | some rid => simp [Wallet.GetOrCreateHDRoot, h]
  | none => simp [Wallet.GetOrCreateHDRoot, h, Wallet.AddSecretToWallet]

/-- C9: when the stored schema version is strictly newer than the engine's
latest known version, `UpgradeDatabase` fails closed and opening the wallet
propagates that failure, so no wallet operation proceeds. -/
theorem upgrade_fails_closed (latest : Nat) (st : WalletStore) (fresh : String)
    (h : latest < st.schemaVersion) :
    Wallet.UpgradeDatabase latest st = Except.error UpgradeError.versionTooNew ∧
    Wallet.OpenWallet latest st fresh = Except.error UpgradeError.versionTooNew := by
  constructor <;> simp [Wallet.UpgradeDatabase, Wallet.OpenWallet, h]

/-- Witness for C9: a wallet file at schema version 2 opened by an engine
whose latest known version is 1 is refused. -/
theorem upgrade_fails_closed_witness :
    (1 : Nat) < ({ emptyStore with schemaVersion := 2 } : WalletStore).schemaVersion ∧
    Wallet.OpenWallet 1 { emptyStore with schemaVersion := 2 } "r"
      = Except.error UpgradeError.versionTooNew :=
  ⟨by decide, (upgrade_fails_closed 1 { emptyStore with schemaVersion := 2 } "r" (by decide)).2⟩

theorem charVal_digitChar : ∀ d, d < 10 → charVal (digitChar d) = d := by decide

theorem isDigitChar_digitChar : ∀ d, d < 10 → isDigitChar (digitChar d) = true := by decide

theorem digitChar_ne_dash : ∀ d, d < 10 → ¬(digitChar d = '-') := by decide

theorem foldl_digits (ds : List Nat) (h : ∀ d ∈ ds, d < 10) (a : Nat) :
    List.foldl (fun acc c => 10 * acc + charVal c) a ((ds.reverse).map digitChar)
      = a * 10 ^ ds.length + Nat.ofDigits 10 ds := by
  induction ds generalizing a with
  | nil => simp [Nat.ofDigits_nil]
  | cons d tl ih =>
    have hd : d < 10 := h d (List.mem_cons_self d tl)
    have htl : ∀ x ∈ tl, x < 10 := fun x hx => h x (List.mem_cons_of_mem d hx)
    simp only [List.reverse_cons, List.map_append, List.foldl_append, List.map_cons,
      List.map_nil, List.foldl_cons, List.foldl_nil, ih htl a, Nat.ofDigits_cons,
      List.length_cons, charVal_digitChar d hd]
    ring

theorem digit_mem_lt (n d : Nat) (h : d ∈ Nat.digits 10 n) : d < 10 :=
  Nat.digits_lt_base (by norm_num) h

theorem natToString_mem (n : Nat) : ∀ c ∈ natToString n, ∃ d, d < 10 ∧ c = digitChar d := by
  intro c hc
  unfold natToString at hc
  by_cases h : n = 0
  · simp [h] at hc
    exact ⟨0, by norm_num, hc⟩
  · simp [h] at hc
    obtain ⟨d, hd, rfl⟩ := hc
    exact ⟨d, digit_mem_lt n d hd, rfl⟩

theorem natToString_ne_nil (n : Nat) : natToString n ≠ [] := by
  unfold natToString
  by_cases h : n = 0
  · simp [h]
  · simp [h, Nat.digits_ne_nil_iff_ne_zero.mpr h]

theorem natToString_all_digits (n : Nat) : (natToString n).all isDigitChar = true := by
  rw [List.all_eq_true]
  intro c hc
  obtain ⟨d, hd, rfl⟩ := natToString_mem n c hc
  exact isDigitChar_digitChar d hd

theorem parseNat_natToString (n : Nat) : parseNatDigits (natToString n) = n := by
  unfold natToString parseNatDigits
  by_cases h : n = 0
  · subst h; decide
  · rw [if_neg h, foldl_digits (Nat.digits 10 n) (fun d hd => digit_mem_lt n d hd) 0]
    simp [Nat.ofDigits_digits]

theorem parse_to_string (a : Amount) (h1 : -(2 ^ 63) ≤ a.i64) (h2 : a.i64 < 2 ^ 63) :
    Amount.parse (Amount.to_string a) = some a := by
  obtain ⟨x⟩ := a
  simp only at h1 h2
  by_cases hx : x < 0
  · have hts : Amount.to_string ⟨x⟩ = '-' :: natToString x.natAbs := by
      simp [Amount.to_string, hx]
    have hne : natToString x.natAbs ≠ [] := natToString_ne_nil _
    have hemp : (natToString x.natAbs).isEmpty = false := by
      cases h : natToString x.natAbs with
      | nil => exact absurd h hne
      | cons _ _ => rfl
    have hv : parseNatDigits (natToString x.natAbs) = x.natAbs := parseNat_natToString _
    have hle : parseNatDigits (natToString x.natAbs) ≤ 2 ^ 63 := by rw [hv]; omega
    have hxx : -((x.natAbs : Int)) = x := by omega
    rw [hts]
    simp only [Amount.parse, if_pos rfl, hemp, natToString_all_digits, hv, hle,
      Bool.false_eq_true, if_false, if_true, if_pos hle, hxx]
    rw [if_pos (show x.natAbs ≤ 2 ^ 63 by omega)]
  · have hts : Amount.to_string ⟨x⟩ = natToString x.toNat := by
      simp [Amount.to_string, hx]
    rw [hts]
    cases hcs : natToString x.toNat with
    | nil => exact absurd hcs (natToString_ne_nil _)
    | cons c rest =>
      have hcmem : c ∈ natToString x.toNat := by rw [hcs]; exact List.mem_cons_self c rest
      obtain ⟨d, hd, rfl⟩ := natToString_mem _ c hcmem
      have hcd : ¬(digitChar d = '-') := digitChar_ne_dash d hd
      have hall : (digitChar d :: rest).all isDigitChar = true := by
        rw [← hcs]; exact natToString_all_digits _
      have hval : parseNatDigits (digitChar d :: rest) = x.toNat := by
        rw [← hcs]; exact parseNat_natToString _
      have hlt : parseNatDigits (digitChar d :: rest) < 2 ^ 63 := by rw [hval]; omega
      have hxx : ((x.toNat : Int)) = x := by omega
      simp only [Amount.parse, if_neg hcd, hall, hval, if_true, if_pos hlt, hxx]
      rw [hval] at hlt
      simp [hlt, hxx]
      omega

theorem parse_sound (cs : List Char) (b : Amount) (h : Amount.parse cs = some b) :
    isNumeral cs = true ∧ b.i64 = numeralVal cs ∧ -(2 ^ 63) ≤ b.i64 ∧ b.i64 < 2 ^ 63 := by
  cases cs with
  | nil => exact absurd h (by simp [Amount.parse])
  | cons c rest =>
    by_cases hc : c = '-'
    · by_cases he : rest.isEmpty
      · simp [Amount.parse, hc, he] at h
      · by_cases hd : rest.all isDigitChar
        · simp [Amount.parse, hc, he, hd] at h
          obtain ⟨hle, hb⟩ := h
          rw [← hb]
          refine ⟨by simp [isNumeral, hc, he, hd], by simp [numeralVal, hc], by simp; omega,
            by simp; omega⟩
        · simp [Amount.parse, hc, he, hd] at h
    · by_cases hd : (c :: rest).all isDigitChar
      · simp [Amount.parse, hc, hd] at h
        obtain ⟨hlt, hb⟩ := h
        rw [← hb]
        refine ⟨by simp [isNumeral, hc, hd], by simp [numeralVal, hc], by simp; omega,
          by simp; omega⟩
      · simp [Amount.parse, hc, hd] at h

/-- C7: decimal rendering of any representable amount parses back to the
same amount, and `parse` accepts only well-formed decimal numerals whose
value it returns exactly and which lie in the `int64_t` range — so
non-numeric, non-integer and out-of-range strings are rejected. -/
theorem amount_parse_round_trip (a b : Amount) (cs : List Char)
    (h1 : -(2 ^ 63) ≤ a.i64) (h2 : a.i64 < 2 ^ 63) :
    Amount.parse (Amount.to_string a) = some a ∧
    (Amount.parse cs = some b →
      isNumeral cs = true ∧ b.i64 = numeralVal cs ∧ -(2 ^ 63) ≤ b.i64 ∧ b.i64 < 2 ^ 63) :=
  ⟨parse_to_string a h1 h2, parse_sound cs b⟩

/-- Witness for C7: the amount -42 is representable and round-trips through
its decimal rendering. -/
theorem amount_parse_round_trip_witness :
    (-(2 ^ 63) ≤ (Amount.mk (-42)).i64 ∧ (Amount.mk (-42)).i64 < 2 ^ 63) ∧
    Amount.parse (Amount.to_string ⟨-42⟩) = some ⟨-42⟩ :=
  ⟨⟨by decide, by decide⟩,
    (amount_parse_round_trip ⟨-42⟩ ⟨0⟩ [] (by decide) (by decide)).1⟩

/-- C1: an accepted `ReplaceWebcash` call conserves value (the exact sum of
input amounts equals the exact sum of requested output amounts), and a call
whose sums mismatch, or one of whose inputs is already marked spent in the
store, is rejected with an error and leaves the store exactly as it was. -/
theorem replace_value_conservation (H : List Nat → Nat) (st : WalletStore)
    (inputs : List WalletOutput) (outs : List (String × Amount)) :
    (∀ st' res, Wallet.ReplaceWebcash H st inputs outs = (st', Except.ok res) →
      sumAmounts (inputs.map WalletOutput.amount) = sumAmounts (outs.map Prod.snd)) ∧
    ((sumAmounts (inputs.map WalletOutput.amount) ≠ sumAmounts (outs.map Prod.snd) ∨
        ∃ inp ∈ inputs, ∃ o, findOutput st inp.id = some o ∧ o.spent = true) →
      (Wallet.ReplaceWebcash H st inputs outs).1 = st ∧
      ∃ e, (Wallet.ReplaceWebcash H st inputs outs).2 = Except.error e) := by
  constructor
  · intro st' res h
    unfold Wallet.ReplaceWebcash at h
    by_cases h1 : inputs.all (checkInput st)
    · rw [if_pos h1] at h
      by_cases h2 : sumAmounts (inputs.map WalletOutput.amount) = sumAmounts (outs.map Prod.snd)
      · exact h2
      · rw [if_neg h2] at h
        simp at h
    · rw [if_neg h1] at h
      simp at h
  · intro hrej
    unfold Wallet.ReplaceWebcash
    by_cases h1 : inputs.all (checkInput st)
    · rw [if_pos h1]
      have h2 : ¬(sumAmounts (inputs.map WalletOutput.amount)
          = sumAmounts (outs.map Prod.snd)) := by
        rcases hrej with hm | ⟨inp, hin, o, hfo, hsp⟩
        · exact hm
        · exfalso
          have hck := List.all_eq_true.mp h1 inp hin
          simp [checkInput, hfo, hsp] at hck
      rw [if_neg h2]
      exact ⟨rfl, ReplaceError.validation, rfl⟩
    · rw [if_neg h1]
      exact ⟨rfl, ReplaceError.conflict, rfl⟩

/-- Witness for C1: a call with one requested 1-unit output and no inputs
has mismatched sums, so it is rejected and the empty store is unchanged. -/
theorem replace_value_conservation_witness :
    (Wallet.ReplaceWebcash Hex emptyStore [] [("s", ⟨1⟩)]).1 = emptyStore ∧
    ∃ e, (Wallet.ReplaceWebcash Hex emptyStore [] [("s", ⟨1⟩)]).2 = Except.error e :=
  (replace_value_conservation Hex emptyStore [] [("s", ⟨1⟩)]).2 (Or.inl (by decide))

theorem markSpent_id (inputs : List WalletOutput) (o : WalletOutput) :
    (markSpent inputs o).id = o.id := by
  unfold markSpent
  split <;> rfl

theorem markSpent_spent_of_mem (inputs : List WalletOutput) (o : WalletOutput)
    (inp : WalletOutput) (hin : inp ∈ inputs) (hid : inp.id = o.id) :
    (markSpent inputs o).spent = true := by
  unfold markSpent
  rw [if_pos]
  exact List.any_eq_true.mpr ⟨inp, hin, by simp [hid]⟩

theorem newOutputs_id_ge (H : List Nat → Nat) (l : List (String × Amount)) :
    ∀ sid oid, ∀ o ∈ newOutputs H sid oid l, oid ≤ o.id := by
  induction l with
  | nil => intro sid oid o ho; simp [newOutputs] at ho
  | cons p tl ih =>
    intro sid oid o ho
    obtain ⟨s, a⟩ := p
    simp only [newOutputs, List.mem_cons] at ho
    rcases ho with rfl | ho
    · exact Nat.le_refl _
    · exact Nat.le_of_succ_le (ih (sid + 1) (oid + 1) o ho)

theorem newOutputs_filter_id (H : List Nat → Nat) (l : List (String × Amount)) :
    ∀ sid oid k, (hk : k < l.length) →
      (newOutputs H sid oid l).filter (fun o => o.id == oid + k)
        = [⟨oid + k, H (strBytes (l.get ⟨k, hk⟩).1), some (sid + k),
            (l.get ⟨k, hk⟩).2, false⟩] := by
  induction l with
  | nil => intro sid oid k hk; exact absurd hk (by simp)
  | cons p tl ih =>
    intro sid oid k hk
    obtain ⟨s, a⟩ := p
    cases k with
    | zero =>
      simp only [newOutputs, List.filter_cons]
      rw [if_pos (by simp)]
      have hnil : (newOutputs H (sid + 1) (oid + 1) tl).filter
          (fun o => o.id == oid + 0) = [] := by
        rw [List.filter_eq_nil_iff]
        intro o ho
        have := newOutputs_id_ge H tl (sid + 1) (oid + 1) o ho
        simp only [beq_iff_eq]
        omega
      rw [hnil]
      simp
    | succ j =>
      simp only [newOutputs, List.filter_cons]
      rw [if_neg (by simp only [beq_iff_eq]; omega)]
      have hj : j < tl.length := by simpa using hk
      have := ih (sid + 1) (oid + 1) j hj
      rw [show oid + (j + 1) = (oid + 1) + j by omega, this]
      simp only [List.get_cons_succ]
      rw [show (sid + 1) + j = sid + (j + 1) by omega]

theorem newSecrets_id_ge (l : List (String × Amount)) :
    ∀ sid, ∀ s ∈ newSecrets sid l, sid ≤ s.id := by
  induction l with
  | nil => intro sid s hs; simp [newSecrets] at hs
  | cons p tl ih =>
    intro sid s hs
    obtain ⟨x, a⟩ := p
    simp only [newSecrets, List.mem_cons] at hs
    rcases hs with rfl | hs
    · exact Nat.le_refl _
    · exact Nat.le_of_succ_le (ih (sid + 1) s hs)

theorem newSecrets_filter_id (l : List (String × Amount)) :
    ∀ sid k, (hk : k < l.length) →
      (newSecrets sid l).filter (fun s => s.id == sid + k)
        = [⟨sid + k, (l.get ⟨k, hk⟩).1, true, false⟩] := by
  induction l with
  | nil => intro sid k hk; exact absurd hk (by simp)
  | cons p tl ih =>
    intro sid k hk
    obtain ⟨x, a⟩ := p
    cases k with
    | zero =>
      simp only [newSecrets, List.filter_cons]
      rw [if_pos (by simp)]
      have hnil : (newSecrets (sid + 1) tl).filter (fun s => s.id == sid + 0) = [] := by
        rw [List.filter_eq_nil_iff]
        intro s hs
        have := newSecrets_id_ge tl (sid + 1) s hs
        simp only [beq_iff_eq]
        omega
      rw [hnil]
      simp
    | succ j =>
      simp only [newSecrets, List.filter_cons]
      rw [if_neg (by simp only [beq_iff_eq]; omega)]
      have hj : j < tl.length := by simpa using hk
      have := ih (sid + 1) j hj
      rw [show sid + (j + 1) = (sid + 1) + j by omega, this]
      simp only [List.get_cons_succ]

/-- C2: after a successful `ReplaceWebcash`, every input's row is marked
spent in the store, and each requested `(secret, amount)` output
specification `k` has exactly one newly created output row — unspent, with
the requested amount, committing to the freshly created secret row — and
exactly one freshly created secret row holding that secret. -/
theorem replace_success_creates (H : List Nat → Nat) (st : WalletStore)
    (inputs : List WalletOutput) (outs : List (String × Amount))
    (st' : WalletStore) (res : List (Nat × Nat))
    (hWFo : ∀ o ∈ st.outputs, o.id < st.nextOutputId)
    (hWFs : ∀ s ∈ st.secrets, s.id < st.nextSecretId)
    (h : Wallet.ReplaceWebcash H st inputs outs = (st', Except.ok res)) :
    (∀ inp ∈ inputs, ∀ o ∈ st'.outputs, o.id = inp.id → o.spent = true) ∧
    (∀ k, (hk : k < outs.length) →
      st'.outputs.filter (fun o => o.id == st.nextOutputId + k)
        = [⟨st.nextOutputId + k, H (strBytes (outs.get ⟨k, hk⟩).1),
            some (st.nextSecretId + k), (outs.get ⟨k, hk⟩).2, false⟩]) ∧
    (∀ k, (hk : k < outs.length) →
      st'.secrets.filter (fun s => s.id == st.nextSecretId + k)
        = [⟨st.nextSecretId + k, (outs.get ⟨k, hk⟩).1, true, false⟩]) := by
  unfold Wallet.ReplaceWebcash at h
  by_cases h1 : inputs.all (checkInput st)
  case neg => rw [if_neg h1] at h; simp at h
  rw [if_pos h1] at h
  by_cases h2 : sumAmounts (inputs.map WalletOutput.amount) = sumAmounts (outs.map Prod.snd)
  case neg => rw [if_neg h2] at h; simp at h
  rw [if_pos h2, Prod.mk.injEq] at h
  obtain ⟨hst, -⟩ := h
  subst hst
  refine ⟨?_, ?_, ?_⟩
  · intro inp hin o ho hid
    dsimp only at ho hid
    rcases List.mem_append.mp ho with hl | hr
    · obtain ⟨o0, ho0, rfl⟩ := List.mem_map.mp hl
      rw [markSpent_id] at hid
      exact markSpent_spent_of_mem inputs o0 inp hin hid.symm
    · exfalso
      have hge := newOutputs_id_ge H outs st.nextSecretId st.nextOutputId o hr
      have hck := List.all_eq_true.mp h1 inp hin
      unfold checkInput at hck
      cases hfo : findOutput st inp.id with
      | none => rw [hfo] at hck; simp at hck
      | some o1 =>
        have hmem := List.mem_of_find?_eq_some hfo
        have hpred := List.find?_some hfo
        simp only [beq_iff_eq] at hpred
        have := hWFo o1 hmem
        omega
  · intro k hk
    dsimp only
    rw [List.filter_append]
    have hold : (st.outputs.map (markSpent inputs)).filter
        (fun o => o.id == st.nextOutputId + k) = [] := by
      rw [List.filter_eq_nil_iff]
      intro o ho
      obtain ⟨o0, ho0, rfl⟩ := List.mem_map.mp ho
      have := hWFo o0 ho0
      simp only [markSpent_id, beq_iff_eq]
      omega
    rw [hold, List.nil_append,
      newOutputs_filter_id H outs st.nextSecretId st.nextOutputId k hk]
  · intro k hk
    dsimp only
    rw [List.filter_append]
    have hold : st.secrets.filter (fun s => s.id == st.nextSecretId + k) = [] := by
      rw [List.filter_eq_nil_iff]
      intro s hs
      have := hWFs s hs
      simp only [beq_iff_eq]
      omega
    rw [hold, List.nil_append, newSecrets_filter_id outs st.nextSecretId k hk]

/-- Witness for C2: spending the single 100-unit output of `store100` for
two fresh outputs of 60 and 40 units creates exactly one new unspent output
row for the first requested specification. -/
theorem replace_success_creates_witness :
    (Wallet.ReplaceWebcash Hex store100 [⟨0, 7, some 0, ⟨100⟩, false⟩]
        [("a", ⟨60⟩), ("b", ⟨40⟩)]).1.outputs.filter (fun o => o.id == 1)
      = [⟨1, 7, some 1, ⟨60⟩, false⟩] :=
  (replace_success_creates Hex store100 [⟨0, 7, some 0, ⟨100⟩, false⟩]
      [("a", ⟨60⟩), ("b", ⟨40⟩)]
      (Wallet.ReplaceWebcash Hex store100 [⟨0, 7, some 0, ⟨100⟩, false⟩]
        [("a", ⟨60⟩), ("b", ⟨40⟩)]).1
      [(1, 1), (2, 2)] (by decide) (by decide) rfl).2.1 0 (by decide)

theorem countHash_zero_no_mem (c : Nat) (st : WalletStore) (h0 : countHash c st = 0) :
    ∀ o ∈ st.outputs, o.hash ≠ c := by
  intro o ho hc
  unfold countHash at h0
  rw [List.length_eq_zero] at h0
  have hm : o ∈ st.outputs.filter (fun o => o.hash == c) :=
    List.mem_filter.mpr ⟨ho, by simp [hc]⟩
  rw [h0] at hm
  simp at hm

theorem countHash_pos_mem (c : Nat) (st : WalletStore) (h1 : countHash c st ≠ 0) :
    ∃ o ∈ st.outputs, o.hash = c := by
  unfold countHash at h1
  cases hf : st.outputs.filter (fun o => o.hash == c) with
  | nil => rw [hf] at h1; simp at h1
  | cons o tl =>
    have hm : o ∈ st.outputs.filter (fun o => o.hash == c) :=
      hf ▸ List.mem_cons_self o tl
    have hmf := List.mem_filter.mp hm
    exact ⟨o, hmf.1, by simpa using hmf.2⟩

theorem insert_rejects (H : List Nat → Nat) (st : WalletStore) (sk : SecretWebcash)
    (mine : Bool) (hdup : ∃ o ∈ st.outputs, o.hash = H (strBytes sk.sk)) :
    Wallet.Insert H st sk mine = (st, false) := by
  obtain ⟨o, ho, hh⟩ := hdup
  have hany : st.outputs.any (fun o => o.hash == H (strBytes sk.sk)) = true :=
    List.any_eq_true.mpr ⟨o, ho, by simp [hh]⟩
  simp [Wallet.Insert, hany]

theorem insert_fresh_count (H : List Nat → Nat) (st : WalletStore) (sk : SecretWebcash)
    (mine : Bool) (c : Nat) (hc : H (strBytes sk.sk) = c) (h0 : countHash c st = 0) :
    countHash c (Wallet.Insert H st sk mine).1 = 1 := by
  have hno := countHash_zero_no_mem c st h0
  have hany : st.outputs.any (fun o => o.hash == H (strBytes sk.sk)) = false := by
    rw [List.any_eq_false]
    intro o ho
    simp only [beq_iff_eq, hc]
    exact hno o ho
  simp only [Wallet.Insert, hany, Bool.false_eq_true, if_false]
  unfold countHash
  dsimp only [Wallet.AddOutputToWallet, Wallet.AddSecretToWallet]
  rw [List.filter_append]
  rw [List.filter_eq_nil_iff.mpr (fun o ho => by simp only [beq_iff_eq]; exact hno o ho)]
  simp [hc]

theorem insertAll_keeps_one (H : List Nat → Nat) (c : Nat) (l : List (SecretWebcash × Bool)) :
    ∀ st : WalletStore, countHash c st = 1 → (∀ p ∈ l, H (strBytes p.1.sk) = c) →
      countHash c (insertAll H l st) = 1 := by
  induction l with
  | nil => intro st h1 _; simpa [insertAll] using h1
  | cons p tl ih =>
    intro st h1 hall
    have hdup : ∃ o ∈ st.outputs, o.hash = H (strBytes p.1.sk) := by
      obtain ⟨o, ho, hoc⟩ := countHash_pos_mem c st (by omega)
      exact ⟨o, ho, by rw [hoc, hall p (List.mem_cons_self p tl)]⟩
    have hrej := insert_rejects H st p.1 p.2 hdup
    simp only [insertAll, List.foldl_cons, hrej]
    exact ih st h1 (fun q hq => hall q (List.mem_cons_of_mem p hq))

/-- C4: `Insert` fails when an output row with the same commitment already
exists — the store and the rejection are returned unchanged — and after any
nonempty sequence of insertions of secrets with one and the same commitment
into a store not yet holding it, the store contains exactly one output row
for that commitment. -/
theorem insert_duplicate_rejected (H : List Nat → Nat) (st : WalletStore)
    (sk : SecretWebcash) (mine : Bool) (c : Nat) (l : List (SecretWebcash × Bool))
    (hl : l ≠ []) (hall : ∀ p ∈ l, H (strBytes p.1.sk) = c) (h0 : countHash c st = 0) :
    ((∃ o ∈ st.outputs, o.hash = H (strBytes sk.sk)) →
      Wallet.Insert H st sk mine = (st, false)) ∧
    countHash c (insertAll H l st) = 1 := by
  refine ⟨insert_rejects H st sk mine, ?_⟩
  cases l with
  | nil => exact absurd rfl hl
  | cons p tl =>
    simp only [insertAll, List.foldl_cons]
    have h1 := insert_fresh_count H st p.1 p.2 c (hall p (List.mem_cons_self p tl)) h0
    exact insertAll_keeps_one H c tl (Wallet.Insert H st p.1 p.2).1 h1
      (fun q hq => hall q (List.mem_cons_of_mem p hq))

/-- Witness for C4: inserting the same secret twice into an empty store
leaves exactly one output row for its commitment. -/
theorem insert_duplicate_rejected_witness :
    ([((⟨"x", ⟨5⟩⟩ : SecretWebcash), true), (⟨"x", ⟨5⟩⟩, true)] ≠
      ([] : List (SecretWebcash × Bool))) ∧
    countHash 7 (insertAll Hex [(⟨"x", ⟨5⟩⟩, true), (⟨"x", ⟨5⟩⟩, true)] emptyStore) = 1 :=
  ⟨by simp, (insert_duplicate_rejected Hex emptyStore ⟨"x", ⟨5⟩⟩ true 7
      [(⟨"x", ⟨5⟩⟩, true), (⟨"x", ⟨5⟩⟩, true)] (by simp)
      (fun p _ => rfl) rfl).2⟩

theorem markSpent_mono (inputs : List WalletOutput) (o : WalletOutput) :
    o.spent = true → (markSpent inputs o).spent = true := by
  intro hs
  unfold markSpent
  split
  · rfl
  · exact hs

theorem markSpent_cases (inputs : List WalletOutput) (o : WalletOutput) :
    markSpent inputs o = o ∨
    ((markSpent inputs o).spent = true ∧
      inputs.any (fun inp => inp.id == o.id) = true) := by
  unfold markSpent
  by_cases hc : inputs.any (fun inp => inp.id == o.id)
  · rw [if_pos hc]
    exact Or.inr ⟨rfl, hc⟩
  · rw [if_neg hc]
    exact Or.inl rfl

theorem smAt_append (H : List Nat → Nat) (op : WalletOp) (st : WalletStore)
    (i : Nat) (h : i < st.outputs.length) (rest : List WalletOutput)
    (hout : (Wallet.step H op st).outputs = st.outputs ++ rest) :
    SpentMonotoneAt H op st i h := by
  have hlen : i < (Wallet.step H op st).outputs.length := by
    rw [hout, List.length_append]
    omega
  have hget : (Wallet.step H op st).outputs.get ⟨i, hlen⟩ = st.outputs.get ⟨i, h⟩ := by
    rw [List.get_of_eq hout ⟨i, hlen⟩]
    simp only [List.get_eq_getElem, Fin.coe_cast]
    exact List.getElem_append_left h
  unfold SpentMonotoneAt
  refine ⟨hlen, ?_, ?_, ?_⟩
  · rw [hget]
  · intro hs
    rw [hget]
    exact hs
  · intro hs
    rw [hget] at hs
    exact Or.inl hs

theorem smAt_replace_success (H : List Nat → Nat) (st : WalletStore)
    (ins : List WalletOutput) (outs2 : List (String × Amount))
    (i : Nat) (h : i < st.outputs.length) (rest : List WalletOutput)
    (hout : (Wallet.step H (WalletOp.replace ins outs2) st).outputs
      = st.outputs.map (markSpent ins) ++ rest) :
    SpentMonotoneAt H (WalletOp.replace ins outs2) st i h := by
  have hlen : i < (Wallet.step H (WalletOp.replace ins outs2) st).outputs.length := by
    rw [hout, List.length_append, List.length_map]
    omega
  have hget : (Wallet.step H (WalletOp.replace ins outs2) st).outputs.get ⟨i, hlen⟩
      = markSpent ins (st.outputs.get ⟨i, h⟩) := by
    rw [List.get_of_eq hout ⟨i, hlen⟩]
    simp only [List.get_eq_getElem, Fin.coe_cast]
    rw [List.getElem_append_left (by simpa using h)]
    simp
  unfold SpentMonotoneAt
  refine ⟨hlen, ?_, ?_, ?_⟩
  · rw [hget, markSpent_id]
  · intro hs
    rw [hget]
    exact markSpent_mono ins _ hs
  · intro hs
    rw [hget] at hs
    rcases markSpent_cases ins (st.outputs.get ⟨i, h⟩) with he | ⟨_, hc⟩
    · rw [he] at hs
      exact Or.inl hs
    · exact Or.inr ⟨ins, outs2, rfl, hc⟩

/-- C5: the spent flag of every stored output row is monotone under every
wallet operation — a spent row never becomes unspent again, the row keeps
its identity, and the only false-to-true transition happens when the row is
consumed as an input of a `ReplaceWebcash` call. -/
theorem wallet_spent_monotone (H : List Nat → Nat) (op : WalletOp) (st : WalletStore)
    (i : Nat) (h : i < st.outputs.length) : SpentMonotoneAt H op st i h := by
  cases op with
  | insert sk mine =>
    by_cases hd : st.outputs.any (fun o => o.hash == H (strBytes sk.sk))
    · exact smAt_append H _ st i h [] (by simp [Wallet.step, Wallet.Insert, hd])
    · exact smAt_append H _ st i h
        [⟨st.nextOutputId, H (strBytes sk.sk), some st.nextSecretId, sk.amount, false⟩]
        (by simp [Wallet.step, Wallet.Insert, hd, Wallet.AddSecretToWallet,
          Wallet.AddOutputToWallet])
  | replace ins outs2 =>
    by_cases h1 : ins.all (checkInput st)
    · by_cases h2 : sumAmounts (ins.map WalletOutput.amount)
          = sumAmounts (outs2.map Prod.snd)
      · exact smAt_replace_success H st ins outs2 i h
          (newOutputs H st.nextSecretId st.nextOutputId outs2)
          (by simp [Wallet.step, Wallet.ReplaceWebcash, h1, h2])
      · exact smAt_append H _ st i h []
          (by simp [Wallet.step, Wallet.ReplaceWebcash, h1, h2])
    · exact smAt_append H _ st i h [] (by simp [Wallet.step, Wallet.ReplaceWebcash, h1])
  | reserve fresh mine sweep =>
    exact smAt_append H _ st i h []
      (by simp [Wallet.step, Wallet.ReserveSecret, Wallet.AddSecretToWallet])
  | hdroot fresh =>
    cases hr : st.hdRoot with
    | some rid =>
      exact smAt_append H _ st i h [] (by simp [Wallet.step, Wallet.GetOrCreateHDRoot, hr])
    | none =>
      exact smAt_append H _ st i h []
        (by simp [Wallet.step, Wallet.GetOrCreateHDRoot, hr, Wallet.AddSecretToWallet])
  | acceptTerms t =>
    refine smAt_append H _ st i h [] ?_
    show (Wallet.AcceptTerms st t).outputs = st.outputs ++ []
    unfold Wallet.AcceptTerms
    split <;> simp

/-- Witness for C5: the spent-flag guarantee instantiated at the single
output row of `store100` under the replace that consumes it. -/
theorem wallet_spent_monotone_witness :
    SpentMonotoneAt Hex
      (WalletOp.replace [⟨0, 7, some 0, ⟨100⟩, false⟩] [("a", ⟨60⟩), ("b", ⟨40⟩)])
      store100 0 (by decide) :=
  wallet_spent_monotone Hex
    (WalletOp.replace [⟨0, 7, some 0, ⟨100⟩, false⟩] [("a", ⟨60⟩), ("b", ⟨40⟩)])
    store100 0 (by decide)
